import Mathlib

/-!
Verification of the curve-editing / voxelization core of
MinecraftCurveGenerator against its specification.

The embedding follows the Python source:
  * `mc_curve_generator/control_point.py`  — `ControlPoint`
  * `mc_curve_generator/curve_model.py`    — `CurveModel` (history, Bézier
    evaluation, adaptive step count)
  * `mc_curve_generator/ui/canvas.py`      — rasterization
    (`update_grid_with_curve`), closest-segment search
    (`_find_closest_segment`), segment split (`_split_curve_segment`),
    end insertion (`_add_point`), tangent drag (`mouseMoveEvent`).

`QPointF` floating-point coordinates are idealized as real numbers.
The undo/redo history never inspects the stored points, so it is embedded
parametrically in the element type; the geometric code instantiates it
with `ControlPoint`.
-/

namespace MCCurve

/-- A 2D point / vector (idealization of Qt's `QPointF`). -/
structure Pt where
  x : ℝ
  y : ℝ

namespace Pt

/-- Componentwise addition (`QPointF + QPointF`). -/
def add (a b : Pt) : Pt := ⟨a.x + b.x, a.y + b.y⟩

/-- Componentwise subtraction (`QPointF - QPointF`). -/
def sub (a b : Pt) : Pt := ⟨a.x - b.x, a.y - b.y⟩

/-- Componentwise negation (`-QPointF`). -/
def neg (a : Pt) : Pt := ⟨-a.x, -a.y⟩

/-- Scaling by a scalar on the right (`QPointF * float`). -/
def scale (a : Pt) (s : ℝ) : Pt := ⟨a.x * s, a.y * s⟩

/-- Division by a scalar (`QPointF / float`). -/
noncomputable def divScalar (a : Pt) (s : ℝ) : Pt := ⟨a.x / s, a.y / s⟩

instance : Add Pt := ⟨add⟩
instance : Sub Pt := ⟨sub⟩
instance : Neg Pt := ⟨neg⟩

theorem add_def (a b : Pt) : a + b = ⟨a.x + b.x, a.y + b.y⟩ := rfl

theorem sub_def (a b : Pt) : a - b = ⟨a.x - b.x, a.y - b.y⟩ := rfl

theorem neg_def (a : Pt) : -a = ⟨-a.x, -a.y⟩ := rfl

theorem ext_iff (a b : Pt) : a = b ↔ a.x = b.x ∧ a.y = b.y := by
  constructor
  · intro h; cases h; exact ⟨rfl, rfl⟩
  · rcases a with ⟨ax, ay⟩
    rcases b with ⟨bx, by'⟩
    rintro ⟨h1, h2⟩
    cases h1; cases h2; rfl

end Pt

/-- Euclidean length of the line from `a` to `b`
(`QLineF(a, b).length()`). -/
noncomputable def qlineLength (a b : Pt) : ℝ :=
  Real.sqrt ((b.x - a.x) ^ 2 + (b.y - a.y) ^ 2)

/-- A control point of the curve (`ControlPoint` in `control_point.py`):
anchor position, incoming and outgoing tangent handles, mirroring flag. -/
structure ControlPoint where
  pos : Pt
  in_tangent : Pt
  out_tangent : Pt
  mirrored : Bool

/-- `ControlPoint.__init__`: default tangents `(-20, 0)` / `(20, 0)`,
`mirrored = True`. -/
def mkControlPoint (pos : Pt) : ControlPoint :=
  { pos := pos
    in_tangent := ⟨-20, 0⟩
    out_tangent := ⟨20, 0⟩
    mirrored := true }

/-- Placeholder control point used as the default of `List.getD`
(never reached under the index bounds used in theorem hypotheses). -/
def defaultCP : ControlPoint := mkControlPoint ⟨0, 0⟩

instance : Inhabited ControlPoint := ⟨defaultCP⟩

/-! ## Undo/redo history (`curve_model.py`)

The history machinery (`_save_state_for_undo`, `undo`, `redo`,
`_restore_state`) copies and shuffles whole point lists without looking
inside them, so it is embedded parametrically in the point type `α`;
`ControlPoint.clone` deep-copies a value, which on pure values is the
identity.  The Python list order is kept: index 0 is the bottom (oldest)
of a stack, the last element is the top. -/

/-- The mutable state of `CurveModel`. -/
structure CurveModelState (α : Type) where
  control_points : List α
  selected_point_index : Option ℕ
  undo_stack : List (List α)
  redo_stack : List (List α)
  deriving DecidableEq

/-- `CurveModel._save_state_for_undo`: append a clone of the current
points, clear the redo stack, and drop the oldest entry (`pop(0)`)
when the stack exceeds 50 entries. -/
def saveStateForUndo {α : Type} (st : CurveModelState α) : CurveModelState α :=
  let stack := st.undo_stack ++ [st.control_points]
  { st with
    undo_stack := if 50 < stack.length then stack.drop 1 else stack
    redo_stack := [] }

/-- `CurveModel._restore_state`: replace the points with a clone of the
given snapshot and clear the selection. -/
def restoreState {α : Type} (st : CurveModelState α) (state : List α) :
    CurveModelState α :=
  { st with control_points := state, selected_point_index := none }

/-- `CurveModel.undo`: when more than one entry is present, pop the top
of the undo stack onto the redo stack and restore from the new top;
otherwise do nothing. -/
def undo {α : Type} (st : CurveModelState α) : CurveModelState α :=
  if 1 < st.undo_stack.length then
    let popped := st.undo_stack.getLastD []
    let stack := st.undo_stack.dropLast
    restoreState { st with undo_stack := stack, redo_stack := st.redo_stack ++ [popped] }
      (stack.getLastD [])
  else st

/-- `CurveModel.redo`: when the redo stack is nonempty, pop its top,
push it onto the undo stack and restore it; otherwise do nothing. -/
def redo {α : Type} (st : CurveModelState α) : CurveModelState α :=
  if st.redo_stack.isEmpty then st
  else
    let state := st.redo_stack.getLastD []
    restoreState { st with
      redo_stack := st.redo_stack.dropLast
      undo_stack := st.undo_stack ++ [state] } state

/-- A committed mutation: overwrite the point list, then snapshot
(`_save_state_for_undo` is called after every committed mutation). -/
def commitMutation {α : Type} (newPts : List α) (st : CurveModelState α) :
    CurveModelState α :=
  saveStateForUndo { st with control_points := newPts }

/-- Apply a sequence of committed mutations in order. -/
def applyMutations {α : Type} (ms : List (List α)) (st : CurveModelState α) :
    CurveModelState α :=
  ms.foldl (fun s m => commitMutation m s) st

/-- Apply `undo` `n` times. -/
def applyUndos {α : Type} : ℕ → CurveModelState α → CurveModelState α
  | 0, st => st
  | n + 1, st => applyUndos n (undo st)

/-- A baseline state: the current points equal the single history entry,
as after `__init__` (with `pts = []`) or after an import snapshot. -/
def baseline {α : Type} (pts : List α) : CurveModelState α :=
  { control_points := pts
    selected_point_index := none
    undo_stack := [pts]
    redo_stack := [] }

/-- The last `n` elements of a list (in order). -/
def lastN {α : Type} (n : ℕ) (l : List α) : List α :=
  l.drop (l.length - n)

/-! ## Bézier evaluation and adaptive sampling (`curve_model.py`) -/

noncomputable section

open scoped Classical

/-- `CurveModel._cubic_bezier`: Bernstein-form cubic Bézier evaluation,
`u³·p0 + 3u²t·p1 + 3ut²·p2 + t³·p3` with `u = 1 - t`. -/
def cubicBezier (p0 p1 p2 p3 : Pt) (t : ℝ) : Pt :=
  let u := 1 - t
  p0.scale (u ^ 3) + p1.scale (3 * u ^ 2 * t) +
    p2.scale (3 * u * t ^ 2) + p3.scale (t ^ 3)

/-- The summed control-polygon edge length used by `_adaptive_steps`. -/
def controlPolygonLength (p0 p1 p2 p3 : Pt) : ℝ :=
  qlineLength p0 p1 + qlineLength p1 p2 + qlineLength p2 p3

/-- `CurveModel._adaptive_steps`: `max(20, int(length / 2))`.  The Python
`int()` truncates toward zero, which on the nonnegative `length / 2`
coincides with the floor. -/
def adaptiveSteps (p0 p1 p2 p3 : Pt) : ℤ :=
  max 20 ⌊controlPolygonLength p0 p1 p2 p3 / 2⌋

/-- Absolute first control point of the segment from `p0cp` to `p3cp`
(`p1_abs = p0.pos + p0.out_tangent`). -/
def p1Abs (p0cp : ControlPoint) : Pt := p0cp.pos + p0cp.out_tangent

/-- Absolute second control point of the segment from `p0cp` to `p3cp`
(`p2_abs = p3.pos + p3.in_tangent`). -/
def p2Abs (p3cp : ControlPoint) : Pt := p3cp.pos + p3cp.in_tangent

/-- The adaptive step count of the segment between two consecutive
control points, as computed at every sampling site in `canvas.py`. -/
def segSteps (p0cp p3cp : ControlPoint) : ℤ :=
  adaptiveSteps p0cp.pos (p1Abs p0cp) (p2Abs p3cp) p3cp.pos

/-- The sample point of the segment between `p0cp` and `p3cp` at loop
index `s`, i.e. the curve evaluated at `t = s / steps`. -/
def segSample (p0cp p3cp : ControlPoint) (s : ℕ) : Pt :=
  cubicBezier p0cp.pos (p1Abs p0cp) (p2Abs p3cp) p3cp.pos
    ((s : ℝ) / ((segSteps p0cp p3cp : ℤ) : ℝ))

/-- The control point the Python code reads at `control_points[i]`
(theorem hypotheses keep `i` in bounds, so the default is never hit). -/
def cpAt (pts : List ControlPoint) (i : ℕ) : ControlPoint :=
  pts.getD i defaultCP

/-! ## Rasterization (`Canvas.update_grid_with_curve`) -/

/-- The center `(x + 0.5, y + 0.5)` of the integer cell `c`. -/
def cellCenter (c : ℤ × ℤ) : Pt := ⟨(c.1 : ℝ) + 0.5, (c.2 : ℝ) + 0.5⟩

/-- Membership of a cell in the disc stamped around one sample point as
the code tests it: the cell lies in the floor/ceil bounding box of the
sample ± radius (the `range(min, max)` loops) and its center is within
`radius` of the sample (`QLineF(pt, center_pt).length() <= radius`). -/
def cellHitBySample (pt : Pt) (radius : ℝ) (c : ℤ × ℤ) : Prop :=
  ⌊pt.x - radius⌋ ≤ c.1 ∧ c.1 < ⌈pt.x + radius⌉ ∧
  ⌊pt.y - radius⌋ ≤ c.2 ∧ c.2 < ⌈pt.y + radius⌉ ∧
  qlineLength pt (cellCenter c) ≤ radius

/-- `Canvas.update_grid_with_curve`: with fewer than 2 control points the
occupied set is empty; otherwise a cell is occupied exactly when some
segment `i` and loop index `t_step ∈ 0..steps` stamp it (bounding-box
loops plus Euclidean distance test), with `radius = width / 2`. -/
def updateGridWithCurve (pts : List ControlPoint) (width : ℝ) :
    Set (ℤ × ℤ) :=
  if pts.length < 2 then ∅
  else
    { c | ∃ i, i + 1 < pts.length ∧
          ∃ s : ℕ, (s : ℤ) ≤ segSteps (cpAt pts i) (cpAt pts (i + 1)) ∧
          cellHitBySample (segSample (cpAt pts i) (cpAt pts (i + 1)) s)
            (width / 2) c }

/-- Modelled from the spec (§4.2): the occupied-cell set described
without the bounding-box mechanism — every integer cell whose center
lies within Euclidean distance `width / 2` of at least one sample point,
empty when fewer than 2 points exist. -/
def rasterSpecCells (pts : List ControlPoint) (width : ℝ) :
    Set (ℤ × ℤ) :=
  if pts.length < 2 then ∅
  else
    { c | ∃ i, i + 1 < pts.length ∧
          ∃ s : ℕ, (s : ℤ) ≤ segSteps (cpAt pts i) (cpAt pts (i + 1)) ∧
          qlineLength (segSample (cpAt pts i) (cpAt pts (i + 1)) s)
            (cellCenter c) ≤ width / 2 }

/-! ## View transform (`Canvas.screen_to_grid` / `grid_to_screen`) -/

/-- `Canvas.screen_to_grid`. -/
def screenToGrid (zoom : ℝ) (off : Pt) (p : Pt) : Pt :=
  ⟨p.x / zoom + off.x, p.y / zoom + off.y⟩

/-- `Canvas.grid_to_screen`. -/
def gridToScreen (zoom : ℝ) (off : Pt) (p : Pt) : Pt :=
  ⟨(p.x - off.x) * zoom, (p.y - off.y) * zoom⟩

/-! ## Closest-segment search (`Canvas._find_closest_segment`) -/

/-- Screen-space distance from the sample `(i, j)` to the query position
(`QLineF(self.grid_to_screen(curve_point_grid), QPointF(screen_pos)).length()`). -/
def sampleScreenDist (zoom : ℝ) (off : Pt) (pts : List ControlPoint)
    (q : Pt) (ij : ℕ × ℕ) : ℝ :=
  qlineLength
    (gridToScreen zoom off (segSample (cpAt pts ij.1) (cpAt pts (ij.1 + 1)) ij.2)) q

/-- The parameter `t = j / steps` recorded for the sample `(i, j)`. -/
def sampleT (pts : List ControlPoint) (ij : ℕ × ℕ) : ℝ :=
  (ij.2 : ℝ) / ((segSteps (cpAt pts ij.1) (cpAt pts (ij.1 + 1)) : ℤ) : ℝ)

/-- All `(segment, step)` loop-index pairs visited by the nested loops of
`_find_closest_segment`, in loop order. -/
def allSamples (pts : List ControlPoint) : List (ℕ × ℕ) :=
  (List.range (pts.length - 1)).flatMap fun i =>
    (List.range ((segSteps (cpAt pts i) (cpAt pts (i + 1))).toNat + 1)).map
      fun j => (i, j)

/-- One iteration of the search loop: replace the accumulator when the
current sample is strictly closer (`if dist < min_dist`). -/
def closestUpdate (zoom : ℝ) (off : Pt) (pts : List ControlPoint) (q : Pt)
    (acc : EReal × Option ℕ × Option ℝ) (ij : ℕ × ℕ) :
    EReal × Option ℕ × Option ℝ :=
  if (sampleScreenDist zoom off pts q ij : EReal) < acc.1 then
    ((sampleScreenDist zoom off pts q ij : EReal), some ij.1, some (sampleT pts ij))
  else acc

/-- `Canvas._find_closest_segment`: returns `(inf, None, None)` with
fewer than 2 points, otherwise folds the strict-improvement update over
every sample starting from `(inf, None, None)`. -/
def findClosestSegment (pts : List ControlPoint) (q : Pt) (zoom : ℝ)
    (off : Pt) : EReal × Option ℕ × Option ℝ :=
  if pts.length < 2 then (⊤, none, none)
  else (allSamples pts).foldl (closestUpdate zoom off pts q) (⊤, none, none)

/-! ## Segment split (`Canvas._split_curve_segment`) -/

/-- The cubic Bézier first derivative used by the split:
`3u²(p1-p0) + 6ut(p2-p1) + 3t²(p3-p2)` with `u = 1 - t`. -/
def bezierDerivAt (p0 p1 p2 p3 : Pt) (t : ℝ) : Pt :=
  let u := 1 - t
  (p1 - p0).scale (3 * u * u) + (p2 - p1).scale (6 * u * t) +
    (p3 - p2).scale (3 * t * t)

/-- `Canvas._split_curve_segment` (unlocked path): evaluates the curve at
`t`, builds the new control point with the derivative-based tangents,
shrinks the old endpoints' tangents, and inserts the new point at
`segment_idx + 1`, selecting it.  Returns `none` exactly when an index
is out of range (where Python would raise `IndexError`). -/
def splitCurveSegment (pts : List ControlPoint) (segment_idx : ℕ) (t : ℝ) :
    Option (List ControlPoint × ℕ) :=
  if segment_idx + 1 < pts.length then
    let p0 := cpAt pts segment_idx
    let p1 := cpAt pts (segment_idx + 1)
    let p0_abs := p0.pos
    let p3_abs := p1.pos
    let p1_abs := p0_abs + p0.out_tangent
    let p2_abs := p3_abs + p1.in_tangent
    let new_pos := cubicBezier p0_abs p1_abs p2_abs p3_abs t
    let u := 1 - t
    let deriv0 := bezierDerivAt p0_abs p1_abs p2_abs p3_abs t
    let length := qlineLength ⟨0, 0⟩ deriv0
    let deriv := if 0.001 < length then deriv0.divScalar length else deriv0
    let chord := qlineLength p0.pos p1.pos
    let new_cp : ControlPoint :=
      { mkControlPoint new_pos with
        out_tangent := ((deriv.scale chord).scale t).scale 0.5
        in_tangent := (((Pt.neg deriv).scale chord).scale u).scale 0.5 }
    let p0' := { p0 with out_tangent := p0.out_tangent.scale t }
    let p1' := { p1 with in_tangent := p1.in_tangent.scale u }
    let updated := (pts.set segment_idx p0').set (segment_idx + 1) p1'
    some (updated.take (segment_idx + 1) ++ new_cp :: updated.drop (segment_idx + 1),
      segment_idx + 1)
  else none

/-- The derivative `_split_curve_segment` computes for the segment at
`idx`: `bezierDerivAt` applied to that segment's absolute control
points. -/
def derivOf (pts : List ControlPoint) (idx : ℕ) (t : ℝ) : Pt :=
  bezierDerivAt (cpAt pts idx).pos ((cpAt pts idx).pos + (cpAt pts idx).out_tangent)
    ((cpAt pts (idx + 1)).pos + (cpAt pts (idx + 1)).in_tangent)
    (cpAt pts (idx + 1)).pos t

/-- Modelled from the spec (§4.4, non-degenerate case): the split result
the claim describes — the new point at `evaluate(..., t)` whose tangents
are the *unit* derivative scaled by `chord·t·0.5` and `-chord·(1-t)·0.5`,
the old endpoints' tangents scaled by `t` and `1-t`, the new point
inserted at `segment_idx + 1` and selected. -/
def splitResultSpec (pts : List ControlPoint) (idx : ℕ) (t : ℝ) :
    List ControlPoint × ℕ :=
  let p0 := cpAt pts idx
  let p1 := cpAt pts (idx + 1)
  let p0_abs := p0.pos
  let p3_abs := p1.pos
  let p1_abs := p0_abs + p0.out_tangent
  let p2_abs := p3_abs + p1.in_tangent
  let u := 1 - t
  let deriv0 := bezierDerivAt p0_abs p1_abs p2_abs p3_abs t
  let unitd := deriv0.divScalar (qlineLength ⟨0, 0⟩ deriv0)
  let chord := qlineLength p0.pos p1.pos
  let new_cp : ControlPoint :=
    { mkControlPoint (cubicBezier p0_abs p1_abs p2_abs p3_abs t) with
      out_tangent := ((unitd.scale chord).scale t).scale 0.5
      in_tangent := (((Pt.neg unitd).scale chord).scale u).scale 0.5 }
  let p0' := { p0 with out_tangent := p0.out_tangent.scale t }
  let p1' := { p1 with in_tangent := p1.in_tangent.scale u }
  let updated := (pts.set idx p0').set (idx + 1) p1'
  (updated.take (idx + 1) ++ new_cp :: updated.drop (idx + 1), idx + 1)

/-- The split result in the degenerate branch (derivative length at or
below `1e-3`): identical to `splitResultSpec` except that the *raw,
un-normalized* derivative replaces the unit derivative in the new
point's tangents. -/
def splitResultUnnormalized (pts : List ControlPoint) (idx : ℕ) (t : ℝ) :
    List ControlPoint × ℕ :=
  let p0 := cpAt pts idx
  let p1 := cpAt pts (idx + 1)
  let p0_abs := p0.pos
  let p3_abs := p1.pos
  let p1_abs := p0_abs + p0.out_tangent
  let p2_abs := p3_abs + p1.in_tangent
  let u := 1 - t
  let deriv0 := bezierDerivAt p0_abs p1_abs p2_abs p3_abs t
  let chord := qlineLength p0.pos p1.pos
  let new_cp : ControlPoint :=
    { mkControlPoint (cubicBezier p0_abs p1_abs p2_abs p3_abs t) with
      out_tangent := ((deriv0.scale chord).scale t).scale 0.5
      in_tangent := (((Pt.neg deriv0).scale chord).scale u).scale 0.5 }
  let p0' := { p0 with out_tangent := p0.out_tangent.scale t }
  let p1' := { p1 with in_tangent := p1.in_tangent.scale u }
  let updated := (pts.set idx p0').set (idx + 1) p1'
  (updated.take (idx + 1) ++ new_cp :: updated.drop (idx + 1), idx + 1)

/-! ## End insertion (`Canvas._add_point`) -/

/-- `Canvas._add_point` (unlocked path), acting on the grid-space
position: sole point when the list is empty, otherwise prepend when
strictly closer to the first point than to the last, else append; the
new point is selected in every case. -/
def addPoint (pts : List ControlPoint) (gridPos : Pt) :
    List ControlPoint × Option ℕ :=
  let new_cp := mkControlPoint gridPos
  match pts with
  | [] => ([new_cp], some 0)
  | _ :: _ =>
    let dist_to_start := qlineLength gridPos (cpAt pts 0).pos
    let dist_to_end := qlineLength gridPos (pts.getLastD defaultCP).pos
    if dist_to_start < dist_to_end then (new_cp :: pts, some 0)
    else (pts ++ [new_cp], some ((pts ++ [new_cp]).length - 1))

/-! ## Tangent drag (`Canvas.mouseMoveEvent`, handle branch) -/

/-- Which tangent handle is being dragged. -/
inductive HandleKind
  | inHandle
  | outHandle
  deriving DecidableEq

/-- The tangent-handle branch of `Canvas.mouseMoveEvent`: the tangent
vector is `(event.pos() - screen_center) * (1 / zoom)`; the dragged
tangent is set to it and, when the point is mirrored, the opposite
tangent is set to its exact negation. -/
def dragTangentHandle (zoom : ℝ) (off : Pt) (pt : ControlPoint)
    (k : HandleKind) (eventPos : Pt) : ControlPoint :=
  let screen_center := gridToScreen zoom off pt.pos
  let tangent_vec := (eventPos - screen_center).scale (1 / zoom)
  match k with
  | HandleKind.inHandle =>
    { pt with
      in_tangent := tangent_vec
      out_tangent := if pt.mirrored then -tangent_vec else pt.out_tangent }
  | HandleKind.outHandle =>
    { pt with
      out_tangent := tangent_vec
      in_tangent := if pt.mirrored then -tangent_vec else pt.in_tangent }

end

/-! ## Helper lemmas -/

theorem qlineLength_horiz (a b y : ℝ) :
    qlineLength ⟨a, y⟩ ⟨b, y⟩ = |b - a| := by
  unfold qlineLength
  simp [Real.sqrt_sq_eq_abs]

theorem qlineLength_nonneg (a b : Pt) : 0 ≤ qlineLength a b :=
  Real.sqrt_nonneg _

theorem controlPolygonLength_nonneg (p0 p1 p2 p3 : Pt) :
    0 ≤ controlPolygonLength p0 p1 p2 p3 := by
  unfold controlPolygonLength
  have h1 := qlineLength_nonneg p0 p1
  have h2 := qlineLength_nonneg p1 p2
  have h3 := qlineLength_nonneg p2 p3
  linarith

/-! ## C2: adaptive step count -/

/-- C2: `_adaptive_steps` returns `max(20, ⌊(|p0p1| + |p1p2| + |p2p3|) / 2⌋)`,
is always at least 20, and is monotonically non-decreasing in the
control-polygon length. -/
theorem adaptiveSteps_formula_min_mono :
    (∀ p0 p1 p2 p3 : Pt, adaptiveSteps p0 p1 p2 p3 =
      max 20 ⌊(qlineLength p0 p1 + qlineLength p1 p2 + qlineLength p2 p3) / 2⌋) ∧
    (∀ p0 p1 p2 p3 : Pt, 20 ≤ adaptiveSteps p0 p1 p2 p3) ∧
    (∀ a0 a1 a2 a3 b0 b1 b2 b3 : Pt,
      controlPolygonLength a0 a1 a2 a3 ≤ controlPolygonLength b0 b1 b2 b3 →
      adaptiveSteps a0 a1 a2 a3 ≤ adaptiveSteps b0 b1 b2 b3) := by
  refine ⟨fun _ _ _ _ => rfl, fun _ _ _ _ => le_max_left _ _, ?_⟩
  intro a0 a1 a2 a3 b0 b1 b2 b3 h
  unfold adaptiveSteps
  exact max_le_max le_rfl (Int.floor_le_floor (by linarith))

/-- Witness for C2 at collinear integer points, where the square roots
evaluate exactly. -/
theorem adaptiveSteps_formula_min_mono_witness :
    controlPolygonLength ⟨0, 0⟩ ⟨1, 0⟩ ⟨2, 0⟩ ⟨3, 0⟩ ≤
      controlPolygonLength ⟨0, 0⟩ ⟨10, 0⟩ ⟨20, 0⟩ ⟨60, 0⟩ ∧
    adaptiveSteps ⟨0, 0⟩ ⟨1, 0⟩ ⟨2, 0⟩ ⟨3, 0⟩ ≤
      adaptiveSteps ⟨0, 0⟩ ⟨10, 0⟩ ⟨20, 0⟩ ⟨60, 0⟩ := by
  have h : controlPolygonLength ⟨0, 0⟩ ⟨1, 0⟩ ⟨2, 0⟩ ⟨3, 0⟩ ≤
      controlPolygonLength ⟨0, 0⟩ ⟨10, 0⟩ ⟨20, 0⟩ ⟨60, 0⟩ := by
    unfold controlPolygonLength
    rw [qlineLength_horiz, qlineLength_horiz, qlineLength_horiz,
      qlineLength_horiz, qlineLength_horiz, qlineLength_horiz]
    norm_num
  exact ⟨h, adaptiveSteps_formula_min_mono.2.2 _ _ _ _ _ _ _ _ h⟩

/-! ## History lemmas -/

/-- Pushing onto a stack holding the last 50 of `l` and then dropping the
oldest entry when over capacity holds the last 50 of `l ++ [a]`. -/
theorem lastN_push {β : Type} (l : List β) (a : β) :
    (if 50 < (lastN 50 l ++ [a]).length then (lastN 50 l ++ [a]).drop 1
     else lastN 50 l ++ [a]) = lastN 50 (l ++ [a]) := by
  unfold lastN
  rcases le_or_lt l.length 49 with hc | hc
  · have h1 : l.length - 50 = 0 := by omega
    have h2 : (l ++ [a]).length - 50 = 0 := by
      simp only [List.length_append, List.length_singleton]; omega
    have hno : ¬ 50 < (l ++ [a]).length := by
      simp only [List.length_append]
      simp only [List.length_cons, List.length_nil]
      omega
    rw [h1, h2, List.drop_zero, List.drop_zero, if_neg hno]
  · have hlen : (l.drop (l.length - 50)).length = 50 := by
      simp only [List.length_drop]; omega
    rw [if_pos (by simp [hlen])]
    rw [List.drop_append_eq_append_drop, List.drop_append_eq_append_drop,
      List.drop_drop]
    have h3 : (1 : ℕ) - (l.drop (l.length - 50)).length = 0 := by omega
    have h4 : (l ++ [a]).length - 50 - l.length = 0 := by
      simp only [List.length_append, List.length_singleton]; omega
    have h5 : l.length - 50 + 1 = (l ++ [a]).length - 50 := by
      simp only [List.length_append, List.length_singleton]; omega
    rw [h3, h4, h5, List.drop_zero]

theorem saveStateForUndo_undo_stack {α : Type} (st : CurveModelState α) :
    (saveStateForUndo st).undo_stack =
      (if 50 < (st.undo_stack ++ [st.control_points]).length
       then (st.undo_stack ++ [st.control_points]).drop 1
       else st.undo_stack ++ [st.control_points]) := rfl

theorem commitMutation_undo_stack {α : Type} (st : CurveModelState α)
    (hist : List (List α)) (m : List α) (h : st.undo_stack = lastN 50 hist) :
    (commitMutation m st).undo_stack = lastN 50 (hist ++ [m]) := by
  have h1 : (commitMutation m st).undo_stack =
      (if 50 < (lastN 50 hist ++ [m]).length then (lastN 50 hist ++ [m]).drop 1
       else lastN 50 hist ++ [m]) := by
    rw [commitMutation, saveStateForUndo_undo_stack]
    simp only [h]
  rw [h1, lastN_push]

theorem applyMutations_undo_stack {α : Type} (ms : List (List α)) :
    ∀ (st : CurveModelState α) (hist : List (List α)),
      st.undo_stack = lastN 50 hist →
      (applyMutations ms st).undo_stack = lastN 50 (hist ++ ms) := by
  induction ms with
  | nil => intro st hist h; simpa [applyMutations] using h
  | cons m ms ih =>
    intro st hist h
    have hstep := commitMutation_undo_stack st hist m h
    have h2 : applyMutations (m :: ms) st = applyMutations ms (commitMutation m st) := rfl
    rw [h2, ih _ (hist ++ [m]) hstep, List.append_assoc, List.singleton_append]

theorem applyMutations_control_points {α : Type} (ms : List (List α)) :
    ∀ st : CurveModelState α,
      (applyMutations ms st).control_points = ms.getLastD st.control_points := by
  induction ms with
  | nil => intro st; rfl
  | cons m ms ih =>
    intro st
    have h1 : applyMutations (m :: ms) st = applyMutations ms (commitMutation m st) := rfl
    rw [h1, ih, List.getLastD_cons]
    rfl

/-! ## C5: snapshot capacity cap -/

/-- C5: `_save_state_for_undo` keeps the undo stack within 50 entries
(evicting the oldest first), always clears the redo stack, and from a
baseline the stack content after any mutation sequence equals the last
50 pushed states in push order. -/
theorem undoStack_cap_spec {α : Type} :
    (∀ st : CurveModelState α, st.undo_stack.length ≤ 50 →
      (saveStateForUndo st).undo_stack.length ≤ 50) ∧
    (∀ st : CurveModelState α, (saveStateForUndo st).redo_stack = []) ∧
    (∀ (pts0 : List α) (ms : List (List α)),
      (applyMutations ms (baseline pts0)).undo_stack = lastN 50 (pts0 :: ms)) := by
  refine ⟨?_, fun _ => rfl, ?_⟩
  · intro st h
    rw [saveStateForUndo_undo_stack]
    rcases le_or_lt (st.undo_stack ++ [st.control_points]).length 50 with hc | hc
    · rw [if_neg (by omega)]; exact hc
    · rw [if_pos hc]
      simp only [List.length_drop, List.length_append, List.length_singleton] at *
      omega
  · intro pts0 ms
    have hb : (baseline pts0 : CurveModelState α).undo_stack = lastN 50 [pts0] := by
      simp [baseline, lastN]
    rw [applyMutations_undo_stack ms _ [pts0] hb, List.singleton_append]

/-- Witness for C5: concrete instances, including the 60-push scenario
from the spec. -/
theorem undoStack_cap_spec_witness :
    ((baseline ([] : List ℕ)).undo_stack.length ≤ 50 ∧
      (saveStateForUndo (baseline ([] : List ℕ))).undo_stack.length ≤ 50) ∧
    (applyMutations ((List.range 60).map fun k => [k]) (baseline ([] : List ℕ))).undo_stack =
      lastN 50 ([] :: (List.range 60).map fun k => [k]) :=
  ⟨⟨by decide, undoStack_cap_spec.1 _ (by decide)⟩, undoStack_cap_spec.2.2 _ _⟩

/-! ## C4: undo/redo restores states -/

theorem applyUndos_restores {α : Type} (ms : List (List α)) :
    ∀ (pts0 : List α) (st : CurveModelState α),
      st.undo_stack = pts0 :: ms →
      st.control_points = (pts0 :: ms).getLastD [] →
      (applyUndos ms.length st).control_points = pts0 := by
  induction ms using List.reverseRecOn with
  | nil =>
    intro pts0 st h hc
    simpa using hc
  | append_singleton ms m ih =>
    intro pts0 st h hc
    have hlen : (ms ++ [m]).length = ms.length + 1 := by simp
    rw [hlen]
    show (applyUndos ms.length (undo st)).control_points = pts0
    have hcond : 1 < st.undo_stack.length := by rw [h]; simp
    have hstack : st.undo_stack.dropLast = pts0 :: ms := by
      rw [h]
      have h2 : pts0 :: (ms ++ [m]) = (pts0 :: ms) ++ [m] := by simp
      rw [h2, List.dropLast_concat]
    have hundo_stack : (undo st).undo_stack = pts0 :: ms := by
      simp only [undo, if_pos hcond, restoreState]
      exact hstack
    have hundo_pts : (undo st).control_points = (pts0 :: ms).getLastD [] := by
      simp only [undo, if_pos hcond, restoreState]
      rw [hstack]
    exact ih pts0 (undo st) hundo_stack hundo_pts

/-- C4, amended: after `N ≤ 49` committed mutations from a baseline
(within the 50-entry history cap), `N` `undo()` calls restore the
baseline point sequence exactly; `redo()` directly after an effective
`undo()` restores the state that was just undone; `undo()` is a no-op
when the stack holds at most the baseline, and `redo()` is a no-op when
the redo stack is empty. -/
theorem undo_redo_history_spec {α : Type} :
    (∀ (pts0 : List α) (ms : List (List α)), ms.length ≤ 49 →
      (applyUndos ms.length (applyMutations ms (baseline pts0))).control_points = pts0) ∧
    (∀ st : CurveModelState α, 1 < st.undo_stack.length →
      (redo (undo st)).control_points = st.undo_stack.getLastD []) ∧
    (∀ st : CurveModelState α, st.undo_stack.length ≤ 1 → undo st = st) ∧
    (∀ st : CurveModelState α, st.redo_stack = [] → redo st = st) := by
  refine ⟨?_, ?_, ?_, ?_⟩
  · intro pts0 ms hlen
    have hb : (baseline pts0 : CurveModelState α).undo_stack = lastN 50 [pts0] := by
      simp [baseline, lastN]
    have hstack0 := applyMutations_undo_stack ms _ [pts0] hb
    have hfull : lastN 50 ([pts0] ++ ms) = pts0 :: ms := by
      unfold lastN
      have h0 : ([pts0] ++ ms).length - 50 = 0 := by simp; omega
      rw [h0, List.drop_zero, List.singleton_append]
    have hstack : (applyMutations ms (baseline pts0)).undo_stack = pts0 :: ms := by
      rw [hstack0, hfull]
    have hpts : (applyMutations ms (baseline pts0)).control_points =
        (pts0 :: ms).getLastD [] := by
      rw [applyMutations_control_points, List.getLastD_cons]
      rfl
    exact applyUndos_restores ms pts0 _ hstack hpts
  · intro st h
    have h1 : (undo st).redo_stack =
        st.redo_stack ++ [st.undo_stack.getLastD []] := by
      simp only [undo, if_pos h, restoreState]
    have h2 : (undo st).redo_stack.isEmpty = false := by
      rw [h1]; simp
    simp only [redo, h2, Bool.false_eq_true, if_false, restoreState]
    rw [h1, List.getLastD_concat]
  · intro st h
    unfold undo
    rw [if_neg (by omega)]
  · intro st h
    unfold redo
    rw [h]
    simp

/-- Witness for C4 at a one-mutation history and a bare baseline. -/
theorem undo_redo_history_spec_witness :
    (([[5]] : List (List ℕ)).length ≤ 49 ∧
      (applyUndos 1 (applyMutations [[5]] (baseline ([] : List ℕ)))).control_points = []) ∧
    undo (baseline ([] : List ℕ)) = baseline [] := by
  refine ⟨⟨by decide, ?_⟩, ?_⟩
  · exact undo_redo_history_spec.1 [] [[5]] (by decide)
  · exact undo_redo_history_spec.2.2.1 _ (by decide)

set_option maxRecDepth 20000 in
/-- C4 counterexample: with `N = 50` consecutive committed mutations the
50-entry cap evicts the baseline snapshot, so 50 `undo()` calls leave
the state after the first mutation (`[1]`), not the empty baseline. -/
theorem undo_after_50_mutations_counterexample :
    (applyUndos 50 (applyMutations ((List.range 50).map fun k => [k + 1])
      (baseline ([] : List ℕ)))).control_points ≠ [] := by decide

/-! ## C6: mirrored tangent drag -/

theorem pt_neg_neg (a : Pt) : -(-a) = a := by
  rw [Pt.neg_def, Pt.neg_def, Pt.ext_iff]
  constructor <;> simp

/-- C6: after a tangent-handle drag on a mirrored point the two tangents
are exact negations, and the dragged tangent equals the vector from the
point's position to the query (grid-space) position. -/
theorem mirrored_drag_spec (zoom : ℝ) (off : Pt) (pt : ControlPoint)
    (k : HandleKind) (eventPos : Pt) (hm : pt.mirrored = true) (hz : zoom ≠ 0) :
    (dragTangentHandle zoom off pt k eventPos).out_tangent =
      -(dragTangentHandle zoom off pt k eventPos).in_tangent ∧
    (match k with
      | HandleKind.inHandle => (dragTangentHandle zoom off pt k eventPos).in_tangent
      | HandleKind.outHandle => (dragTangentHandle zoom off pt k eventPos).out_tangent) =
      screenToGrid zoom off eventPos - pt.pos := by
  have hvec : (eventPos - gridToScreen zoom off pt.pos).scale (1 / zoom) =
      screenToGrid zoom off eventPos - pt.pos := by
    rw [Pt.ext_iff]
    refine ⟨?_, ?_⟩
    · show (eventPos.x - (pt.pos.x - off.x) * zoom) * (1 / zoom) =
        eventPos.x / zoom + off.x - pt.pos.x
      field_simp
      ring
    · show (eventPos.y - (pt.pos.y - off.y) * zoom) * (1 / zoom) =
        eventPos.y / zoom + off.y - pt.pos.y
      field_simp
      ring
  cases k with
  | inHandle =>
    refine ⟨?_, ?_⟩
    · simp [dragTangentHandle, hm]
    · simp only [dragTangentHandle, hm, if_true]
      exact hvec
  | outHandle =>
    refine ⟨?_, ?_⟩
    · simp [dragTangentHandle, hm, pt_neg_neg]
    · simp only [dragTangentHandle, hm, if_true]
      exact hvec

/-- Witness for C6: dragging the out-handle of a mirrored default point. -/
theorem mirrored_drag_spec_witness :
    (mkControlPoint ⟨0, 0⟩).mirrored = true ∧ (2 : ℝ) ≠ 0 ∧
    ((dragTangentHandle 2 ⟨0, 0⟩ (mkControlPoint ⟨0, 0⟩) HandleKind.outHandle
        ⟨6, 4⟩).out_tangent =
      -(dragTangentHandle 2 ⟨0, 0⟩ (mkControlPoint ⟨0, 0⟩) HandleKind.outHandle
        ⟨6, 4⟩).in_tangent) ∧
    (dragTangentHandle 2 ⟨0, 0⟩ (mkControlPoint ⟨0, 0⟩) HandleKind.outHandle
        ⟨6, 4⟩).out_tangent =
      screenToGrid 2 ⟨0, 0⟩ ⟨6, 4⟩ - (mkControlPoint ⟨0, 0⟩).pos := by
  have h := mirrored_drag_spec 2 ⟨0, 0⟩ (mkControlPoint ⟨0, 0⟩)
    HandleKind.outHandle ⟨6, 4⟩ rfl (by norm_num)
  exact ⟨rfl, by norm_num, h.1, h.2⟩

/-! ## C8: append/prepend at path ends -/

/-- C8: adding a point at a path end inserts the sole (selected) point
into an empty list, prepends (selecting index 0) when the new position
is strictly closer to the first point than to the last, and otherwise
appends (selecting the last index). -/
theorem addPoint_spec (pts : List ControlPoint) (gridPos : Pt) :
    (pts = [] → addPoint pts gridPos = ([mkControlPoint gridPos], some 0)) ∧
    (pts ≠ [] →
      qlineLength gridPos (cpAt pts 0).pos <
        qlineLength gridPos (pts.getLastD defaultCP).pos →
      addPoint pts gridPos = (mkControlPoint gridPos :: pts, some 0)) ∧
    (pts ≠ [] →
      ¬ qlineLength gridPos (cpAt pts 0).pos <
        qlineLength gridPos (pts.getLastD defaultCP).pos →
      addPoint pts gridPos = (pts ++ [mkControlPoint gridPos], some pts.length)) := by
  refine ⟨?_, ?_, ?_⟩
  · rintro rfl; rfl
  · intro hne hlt
    rcases pts with _ | ⟨p, rest⟩
    · exact absurd rfl hne
    · simp only [addPoint]
      rw [if_pos hlt]
  · intro hne hge
    rcases pts with _ | ⟨p, rest⟩
    · exact absurd rfl hne
    · simp only [addPoint]
      rw [if_neg hge]
      simp

/-- Witness for C8: a position strictly closer to the first endpoint is
prepended and selected at index 0. -/
theorem addPoint_spec_witness :
    ([mkControlPoint ⟨0, 0⟩, mkControlPoint ⟨10, 0⟩] ≠ ([] : List ControlPoint)) ∧
    qlineLength ⟨1, 0⟩ (cpAt [mkControlPoint ⟨0, 0⟩, mkControlPoint ⟨10, 0⟩] 0).pos <
      qlineLength ⟨1, 0⟩
        ([mkControlPoint ⟨0, 0⟩, mkControlPoint ⟨10, 0⟩].getLastD defaultCP).pos ∧
    addPoint [mkControlPoint ⟨0, 0⟩, mkControlPoint ⟨10, 0⟩] ⟨1, 0⟩ =
      (mkControlPoint ⟨1, 0⟩ :: [mkControlPoint ⟨0, 0⟩, mkControlPoint ⟨10, 0⟩],
        some 0) := by
  have h1 : [mkControlPoint (⟨0, 0⟩ : Pt), mkControlPoint ⟨10, 0⟩] ≠
      ([] : List ControlPoint) := by simp
  have h2 : qlineLength ⟨1, 0⟩
      (cpAt [mkControlPoint ⟨0, 0⟩, mkControlPoint ⟨10, 0⟩] 0).pos <
      qlineLength ⟨1, 0⟩
        ([mkControlPoint ⟨0, 0⟩, mkControlPoint ⟨10, 0⟩].getLastD defaultCP).pos := by
    show qlineLength ⟨1, 0⟩ ⟨0, 0⟩ < qlineLength ⟨1, 0⟩ ⟨10, 0⟩
    rw [qlineLength_horiz, qlineLength_horiz]
    norm_num
  exact ⟨h1, h2, (addPoint_spec _ _).2.1 h1 h2⟩

/-! ## Split lemmas -/

theorem splitCurveSegment_normalized (pts : List ControlPoint) (idx : ℕ) (t : ℝ)
    (h : idx + 1 < pts.length)
    (hnd : 0.001 < qlineLength ⟨0, 0⟩ (derivOf pts idx t)) :
    splitCurveSegment pts idx t = some (splitResultSpec pts idx t) := by
  unfold derivOf at hnd
  simp only [splitCurveSegment, splitResultSpec]
  rw [if_pos h, if_pos hnd]

theorem splitCurveSegment_unnormalized (pts : List ControlPoint) (idx : ℕ) (t : ℝ)
    (h : idx + 1 < pts.length)
    (hnd : qlineLength ⟨0, 0⟩ (derivOf pts idx t) ≤ 0.001) :
    splitCurveSegment pts idx t = some (splitResultUnnormalized pts idx t) := by
  unfold derivOf at hnd
  simp only [splitCurveSegment, splitResultUnnormalized]
  rw [if_pos h, if_neg (not_lt.mpr hnd)]

/-- Reading the inserted element of `take n ++ c :: rest` at index `n`. -/
theorem cpAt_insert_at (l : List ControlPoint) (n : ℕ) (c : ControlPoint)
    (rest : List ControlPoint) (h : n ≤ l.length) :
    cpAt (l.take n ++ c :: rest) n = c := by
  have hl : (l.take n).length = n := by
    rw [List.length_take]; omega
  unfold cpAt
  rw [List.getD_eq_getElem?_getD, List.getElem?_append_right (le_of_eq hl),
    hl, Nat.sub_self]
  simp

/-- Reading `take n ++ c :: rest` strictly below the insertion index. -/
theorem cpAt_insert_before (l : List ControlPoint) (n j : ℕ) (c : ControlPoint)
    (rest : List ControlPoint) (hj : j < n) (h : n ≤ l.length) :
    cpAt (l.take n ++ c :: rest) j = cpAt l j := by
  have hl : (l.take n).length = n := by
    rw [List.length_take]; omega
  unfold cpAt
  rw [List.getD_eq_getElem?_getD, List.getD_eq_getElem?_getD,
    List.getElem?_append, hl, if_pos hj, List.getElem?_take, if_pos hj]

/-- Reading `take n ++ c :: drop n` above the insertion index: the old
element at `j` now sits at `j + 1`. -/
theorem cpAt_insert_after (l : List ControlPoint) (n j : ℕ) (c : ControlPoint)
    (hj : n ≤ j) (h : n ≤ l.length) :
    cpAt (l.take n ++ c :: l.drop n) (j + 1) = cpAt l j := by
  have hl : (l.take n).length = n := by
    rw [List.length_take]; omega
  unfold cpAt
  rw [List.getD_eq_getElem?_getD, List.getD_eq_getElem?_getD,
    List.getElem?_append_right (by rw [hl]; omega), hl]
  have h1 : j + 1 - n = (j - n) + 1 := by omega
  rw [h1, List.getElem?_cons_succ, List.getElem?_drop]
  have h2 : n + (j - n) = j := by omega
  rw [h2]

/-- Projection of the tangent-overridden new control point. -/
theorem mk_with_out_tangent (P E F : Pt) :
    ({ mkControlPoint P with out_tangent := E, in_tangent := F } :
      ControlPoint).out_tangent = E := rfl

/-- The control point inserted at `idx + 1` by the normalized split. -/
theorem cpAt_splitResultSpec_new (pts : List ControlPoint) (idx : ℕ) (t : ℝ)
    (hidx : idx + 1 < pts.length) :
    cpAt (splitResultSpec pts idx t).1 (idx + 1) =
      { pos := cubicBezier (cpAt pts idx).pos
          ((cpAt pts idx).pos + (cpAt pts idx).out_tangent)
          ((cpAt pts (idx + 1)).pos + (cpAt pts (idx + 1)).in_tangent)
          (cpAt pts (idx + 1)).pos t
        in_tangent := (((Pt.neg ((derivOf pts idx t).divScalar
            (qlineLength ⟨0, 0⟩ (derivOf pts idx t)))).scale
            (qlineLength (cpAt pts idx).pos (cpAt pts (idx + 1)).pos)).scale
            (1 - t)).scale 0.5
        out_tangent := ((((derivOf pts idx t).divScalar
            (qlineLength ⟨0, 0⟩ (derivOf pts idx t))).scale
            (qlineLength (cpAt pts idx).pos (cpAt pts (idx + 1)).pos)).scale
            t).scale 0.5
        mirrored := true } := by
  have hupd : ((pts.set idx { cpAt pts idx with
      out_tangent := (cpAt pts idx).out_tangent.scale t }).set (idx + 1)
      { cpAt pts (idx + 1) with
        in_tangent := (cpAt pts (idx + 1)).in_tangent.scale (1 - t) }).length =
      pts.length := by
    simp
  simp only [splitResultSpec, derivOf]
  rw [cpAt_insert_at _ _ _ _ (by rw [hupd]; omega)]
  rfl

/-! ## C3: segment split, non-degenerate case -/

/-- C3: splitting a valid segment at `t ∈ (0,1)` with a non-degenerate
derivative yields exactly the state §4.4 describes: new point at
`evaluate(..., t)` with `out_tangent = unit_derivative · chord · t · 0.5`
and `in_tangent = -unit_derivative · chord · (1-t) · 0.5`, original
endpoints' tangents scaled by `t` and `1-t`, the new point inserted at
`segment_idx + 1` and the selection set to that index. -/
theorem split_segment_spec (pts : List ControlPoint) (idx : ℕ) (t : ℝ)
    (hidx : idx + 1 < pts.length) (ht0 : 0 < t) (ht1 : t < 1)
    (hnd : 0.001 < qlineLength ⟨0, 0⟩ (derivOf pts idx t)) :
    splitCurveSegment pts idx t = some (splitResultSpec pts idx t) ∧
    (splitResultSpec pts idx t).2 = idx + 1 ∧
    (splitResultSpec pts idx t).1.length = pts.length + 1 ∧
    cpAt (splitResultSpec pts idx t).1 (idx + 1) =
      { pos := cubicBezier (cpAt pts idx).pos
          ((cpAt pts idx).pos + (cpAt pts idx).out_tangent)
          ((cpAt pts (idx + 1)).pos + (cpAt pts (idx + 1)).in_tangent)
          (cpAt pts (idx + 1)).pos t
        in_tangent := (((Pt.neg ((derivOf pts idx t).divScalar
            (qlineLength ⟨0, 0⟩ (derivOf pts idx t)))).scale
            (qlineLength (cpAt pts idx).pos (cpAt pts (idx + 1)).pos)).scale
            (1 - t)).scale 0.5
        out_tangent := ((((derivOf pts idx t).divScalar
            (qlineLength ⟨0, 0⟩ (derivOf pts idx t))).scale
            (qlineLength (cpAt pts idx).pos (cpAt pts (idx + 1)).pos)).scale
            t).scale 0.5
        mirrored := true } ∧
    cpAt (splitResultSpec pts idx t).1 idx =
      { cpAt pts idx with out_tangent := (cpAt pts idx).out_tangent.scale t } ∧
    cpAt (splitResultSpec pts idx t).1 (idx + 2) =
      { cpAt pts (idx + 1) with
        in_tangent := (cpAt pts (idx + 1)).in_tangent.scale (1 - t) } := by
  have hupd : ((pts.set idx { cpAt pts idx with
      out_tangent := (cpAt pts idx).out_tangent.scale t }).set (idx + 1)
      { cpAt pts (idx + 1) with
        in_tangent := (cpAt pts (idx + 1)).in_tangent.scale (1 - t) }).length =
      pts.length := by
    simp
  refine ⟨splitCurveSegment_normalized pts idx t hidx hnd, rfl, ?_, ?_, ?_, ?_⟩
  · simp only [splitResultSpec]
    simp only [List.length_append, List.length_take, List.length_cons,
      List.length_drop, List.length_set]
    omega
  · exact cpAt_splitResultSpec_new pts idx t hidx
  · simp only [splitResultSpec]
    rw [cpAt_insert_before _ _ _ _ _ (by omega) (by rw [hupd]; omega)]
    unfold cpAt
    rw [List.getD_eq_getElem?_getD,
      List.getElem?_set_ne (by omega),
      List.getElem?_set_self (by omega),
      Option.getD_some]
  · simp only [splitResultSpec]
    rw [cpAt_insert_after _ _ _ _ (by omega) (by rw [hupd]; omega)]
    unfold cpAt
    rw [List.getD_eq_getElem?_getD,
      List.getElem?_set_self (by simp; omega),
      Option.getD_some]

/-- Witness for C3: a split at `t = 1/2` of a two-point horizontal
segment, whose derivative has exactly computable length 120. -/
theorem split_segment_spec_witness :
    0 + 1 < ([mkControlPoint ⟨0, 0⟩, mkControlPoint ⟨100, 0⟩] :
      List ControlPoint).length ∧
    (0 : ℝ) < 1 / 2 ∧ (1 / 2 : ℝ) < 1 ∧
    0.001 < qlineLength ⟨0, 0⟩
      (derivOf [mkControlPoint ⟨0, 0⟩, mkControlPoint ⟨100, 0⟩] 0 (1 / 2)) ∧
    splitCurveSegment [mkControlPoint ⟨0, 0⟩, mkControlPoint ⟨100, 0⟩] 0 (1 / 2) =
      some (splitResultSpec [mkControlPoint ⟨0, 0⟩, mkControlPoint ⟨100, 0⟩] 0
        (1 / 2)) := by
  have h1 : 0 + 1 < ([mkControlPoint ⟨0, 0⟩, mkControlPoint ⟨100, 0⟩] :
      List ControlPoint).length := by simp
  have h2 : (0 : ℝ) < 1 / 2 := by norm_num
  have h3 : (1 / 2 : ℝ) < 1 := by norm_num
  have hd : derivOf [mkControlPoint ⟨0, 0⟩, mkControlPoint ⟨100, 0⟩] 0 (1 / 2) =
      ⟨120, 0⟩ := by
    show bezierDerivAt ⟨0, 0⟩ (Pt.mk 0 0 + Pt.mk 20 0) (Pt.mk 100 0 + Pt.mk (-20) 0)
      ⟨100, 0⟩ (1 / 2) = ⟨120, 0⟩
    rw [Pt.ext_iff]
    unfold bezierDerivAt
    rw [Pt.add_def, Pt.add_def, Pt.add_def, Pt.add_def, Pt.sub_def, Pt.sub_def,
      Pt.sub_def]
    unfold Pt.scale
    constructor <;> norm_num
  have h4 : 0.001 < qlineLength ⟨0, 0⟩
      (derivOf [mkControlPoint ⟨0, 0⟩, mkControlPoint ⟨100, 0⟩] 0 (1 / 2)) := by
    rw [hd, qlineLength_horiz]
    norm_num
  exact ⟨h1, h2, h3, h4,
    (split_segment_spec _ 0 (1 / 2) h1 h2 h3 h4).1⟩

/-! ## C9: degenerate-derivative guard -/

/-- C9, amended: the derivative is normalized exactly when its length
exceeds `1e-3`; when the length is at or below the threshold the raw,
un-normalized derivative is used directly for the new tangents (so they
are the raw derivative scaled by `chord·t·0.5` / `chord·(1-t)·0.5`, not
necessarily zero); the split never raises on a valid segment index. -/
theorem split_degenerate_deriv_spec (pts : List ControlPoint) (idx : ℕ) (t : ℝ)
    (hidx : idx + 1 < pts.length) :
    (∃ r, splitCurveSegment pts idx t = some r) ∧
    (0.001 < qlineLength ⟨0, 0⟩ (derivOf pts idx t) →
      splitCurveSegment pts idx t = some (splitResultSpec pts idx t)) ∧
    (qlineLength ⟨0, 0⟩ (derivOf pts idx t) ≤ 0.001 →
      splitCurveSegment pts idx t = some (splitResultUnnormalized pts idx t)) := by
  refine ⟨?_, fun h => splitCurveSegment_normalized pts idx t hidx h,
    fun h => splitCurveSegment_unnormalized pts idx t hidx h⟩
  rcases le_or_lt (qlineLength ⟨0, 0⟩ (derivOf pts idx t)) 0.001 with h | h
  · exact ⟨_, splitCurveSegment_unnormalized pts idx t hidx h⟩
  · exact ⟨_, splitCurveSegment_normalized pts idx t hidx h⟩

/-- Witness for C9 on a concrete two-point curve. -/
theorem split_degenerate_deriv_spec_witness :
    0 + 1 < ([mkControlPoint ⟨0, 0⟩, mkControlPoint ⟨50, 0⟩] :
      List ControlPoint).length ∧
    (∃ r, splitCurveSegment [mkControlPoint ⟨0, 0⟩, mkControlPoint ⟨50, 0⟩] 0
      (1 / 3) = some r) := by
  have h1 : 0 + 1 < ([mkControlPoint ⟨0, 0⟩, mkControlPoint ⟨50, 0⟩] :
      List ControlPoint).length := by simp
  exact ⟨h1, (split_degenerate_deriv_spec _ 0 (1 / 3) h1).1⟩

/-- The control points of the C9 counterexample: a segment engineered so
the split derivative at `t = 1/2` is `(1/2000, 0)` — positive but below
the `1e-3` threshold — while the chord is non-zero. -/
noncomputable def c9pts : List ControlPoint :=
  [⟨⟨0, 0⟩, ⟨-20, 0⟩, ⟨1, 0⟩, true⟩,
   ⟨⟨3001 / 3000, 0⟩, ⟨-1, 0⟩, ⟨20, 0⟩, true⟩]

/-- C9 counterexample: on `c9pts` at `t = 1/2` the derivative length is
at most `1e-3`, yet the inserted point's `out_tangent` is NOT the zero
vector — the code leaves the derivative un-normalized rather than
treating it as zero. -/
theorem split_degenerate_not_zero_counterexample :
    qlineLength ⟨0, 0⟩ (derivOf c9pts 0 (1 / 2)) ≤ 0.001 ∧
    (cpAt ((splitCurveSegment c9pts 0 (1 / 2)).getD ([], 0)).1 1).out_tangent ≠
      (⟨0, 0⟩ : Pt) := by
  have hd : derivOf c9pts 0 (1 / 2) = ⟨1 / 2000, 0⟩ := by
    show bezierDerivAt ⟨0, 0⟩ (Pt.mk 0 0 + Pt.mk 1 0)
      (Pt.mk (3001 / 3000) 0 + Pt.mk (-1) 0) ⟨3001 / 3000, 0⟩ (1 / 2) =
      ⟨1 / 2000, 0⟩
    rw [Pt.ext_iff]
    unfold bezierDerivAt
    rw [Pt.add_def, Pt.add_def, Pt.add_def, Pt.add_def, Pt.sub_def, Pt.sub_def,
      Pt.sub_def]
    unfold Pt.scale
    constructor <;> norm_num
  have hlen : qlineLength ⟨0, 0⟩ (derivOf c9pts 0 (1 / 2)) ≤ 0.001 := by
    rw [hd, qlineLength_horiz, abs_le]
    norm_num
  refine ⟨hlen, ?_⟩
  rw [splitCurveSegment_unnormalized c9pts 0 (1 / 2) (by simp [c9pts]) hlen,
    Option.getD_some]
  simp only [splitResultUnnormalized]
  rw [cpAt_insert_at _ _ _ _ (by simp [c9pts]), mk_with_out_tangent]
  have hd' : bezierDerivAt (cpAt c9pts 0).pos
      ((cpAt c9pts 0).pos + (cpAt c9pts 0).out_tangent)
      ((cpAt c9pts (0 + 1)).pos + (cpAt c9pts (0 + 1)).in_tangent)
      (cpAt c9pts (0 + 1)).pos (1 / 2) = ⟨1 / 2000, 0⟩ := hd
  have hchord : qlineLength (cpAt c9pts 0).pos (cpAt c9pts (0 + 1)).pos =
      3001 / 3000 := by
    show qlineLength ⟨0, 0⟩ ⟨3001 / 3000, 0⟩ = 3001 / 3000
    rw [qlineLength_horiz]
    norm_num
  rw [hd', hchord]
  intro heq
  have hx := ((Pt.ext_iff _ _).mp heq).1
  simp only [Pt.scale] at hx
  norm_num at hx

/-! ## C10: inserted point is mirrored but its tangents are not -/

theorem qlineLength_zero_zero : qlineLength ⟨0, 0⟩ ⟨0, 0⟩ = 0 := by
  rw [qlineLength_horiz]
  norm_num

/-- C10: every freshly constructed control point carries
`mirrored = true` with default tangents `(-20, 0)` / `(20, 0)`; a split
at `t ≠ 1/2` with a non-degenerate derivative and non-zero chord inserts
a point that is flagged mirrored yet whose tangents are not exact
negations — `out_tangent` is `-in_tangent` scaled by `t / (1 - t)`. -/
theorem new_point_mirrored_but_unbalanced :
    (∀ pos : Pt, (mkControlPoint pos).mirrored = true ∧
      (mkControlPoint pos).in_tangent = ⟨-20, 0⟩ ∧
      (mkControlPoint pos).out_tangent = ⟨20, 0⟩) ∧
    (∀ (pts : List ControlPoint) (idx : ℕ) (t : ℝ),
      idx + 1 < pts.length → 0 < t → t < 1 → t ≠ 1 / 2 →
      0.001 < qlineLength ⟨0, 0⟩ (derivOf pts idx t) →
      qlineLength (cpAt pts idx).pos (cpAt pts (idx + 1)).pos ≠ 0 →
      splitCurveSegment pts idx t = some (splitResultSpec pts idx t) ∧
      (cpAt (splitResultSpec pts idx t).1 (idx + 1)).mirrored = true ∧
      (cpAt (splitResultSpec pts idx t).1 (idx + 1)).out_tangent =
        (Pt.neg ((cpAt (splitResultSpec pts idx t).1 (idx + 1)).in_tangent)).scale
          (t / (1 - t)) ∧
      (cpAt (splitResultSpec pts idx t).1 (idx + 1)).out_tangent ≠
        Pt.neg ((cpAt (splitResultSpec pts idx t).1 (idx + 1)).in_tangent)) := by
  refine ⟨fun pos => ⟨rfl, rfl, rfl⟩, ?_⟩
  intro pts idx t hidx ht0 ht1 thalf hnd hchord
  have hu : (1 : ℝ) - t ≠ 0 := by intro h; linarith
  have hL : qlineLength ⟨0, 0⟩ (derivOf pts idx t) ≠ 0 := by
    intro h
    rw [h] at hnd
    norm_num at hnd
  rw [cpAt_splitResultSpec_new pts idx t hidx]
  refine ⟨splitCurveSegment_normalized pts idx t hidx hnd, rfl, ?_, ?_⟩
  · rw [Pt.ext_iff]
    simp only [Pt.scale, Pt.neg]
    constructor <;> (field_simp; ring)
  · intro heq
    rw [Pt.ext_iff] at heq
    simp only [Pt.scale, Pt.neg, Pt.divScalar] at heq
    obtain ⟨hx, hy⟩ := heq
    have ht' : t - (1 - t) ≠ 0 := by
      intro h
      apply thalf
      linarith
    have hux : (derivOf pts idx t).x / qlineLength ⟨0, 0⟩ (derivOf pts idx t) = 0 := by
      have h0 : (derivOf pts idx t).x / qlineLength ⟨0, 0⟩ (derivOf pts idx t) *
          qlineLength (cpAt pts idx).pos (cpAt pts (idx + 1)).pos * 0.5 *
          (t - (1 - t)) = 0 := by
        linear_combination hx
      rcases mul_eq_zero.mp h0 with h | h
      · rcases mul_eq_zero.mp h with h2 | h2
        · rcases mul_eq_zero.mp h2 with h3 | h3
          · exact h3
          · exact absurd h3 hchord
        · norm_num at h2
      · exact absurd h ht'
    have huy : (derivOf pts idx t).y / qlineLength ⟨0, 0⟩ (derivOf pts idx t) = 0 := by
      have h0 : (derivOf pts idx t).y / qlineLength ⟨0, 0⟩ (derivOf pts idx t) *
          qlineLength (cpAt pts idx).pos (cpAt pts (idx + 1)).pos * 0.5 *
          (t - (1 - t)) = 0 := by
        linear_combination hy
      rcases mul_eq_zero.mp h0 with h | h
      · rcases mul_eq_zero.mp h with h2 | h2
        · rcases mul_eq_zero.mp h2 with h3 | h3
          · exact h3
          · exact absurd h3 hchord
        · norm_num at h2
      · exact absurd h ht'
    have hdx : (derivOf pts idx t).x = 0 := by
      rcases div_eq_zero_iff.mp hux with h | h
      · exact h
      · exact absurd h hL
    have hdy : (derivOf pts idx t).y = 0 := by
      rcases div_eq_zero_iff.mp huy with h | h
      · exact h
      · exact absurd h hL
    have hzero : derivOf pts idx t = ⟨0, 0⟩ := by
      rw [Pt.ext_iff]
      exact ⟨hdx, hdy⟩
    rw [hzero, qlineLength_zero_zero] at hL
    exact hL rfl

/-- Witness for C10: a split at `t = 1/4`, where the inserted point is
mirrored-flagged while its tangents differ by the factor `1/3`. -/
theorem new_point_mirrored_but_unbalanced_witness :
    (mkControlPoint ⟨7, 9⟩).mirrored = true ∧
    (0 + 1 < ([mkControlPoint ⟨0, 0⟩, mkControlPoint ⟨100, 0⟩] :
        List ControlPoint).length ∧
      (0 : ℝ) < 1 / 4 ∧ (1 / 4 : ℝ) < 1 ∧ (1 / 4 : ℝ) ≠ 1 / 2 ∧
      0.001 < qlineLength ⟨0, 0⟩
        (derivOf [mkControlPoint ⟨0, 0⟩, mkControlPoint ⟨100, 0⟩] 0 (1 / 4)) ∧
      qlineLength (cpAt [mkControlPoint ⟨0, 0⟩, mkControlPoint ⟨100, 0⟩] 0).pos
        (cpAt [mkControlPoint ⟨0, 0⟩, mkControlPoint ⟨100, 0⟩] (0 + 1)).pos ≠ 0) ∧
    (cpAt (splitResultSpec [mkControlPoint ⟨0, 0⟩, mkControlPoint ⟨100, 0⟩] 0
      (1 / 4)).1 (0 + 1)).mirrored = true := by
  have h1 : 0 + 1 < ([mkControlPoint ⟨0, 0⟩, mkControlPoint ⟨100, 0⟩] :
      List ControlPoint).length := by simp
  have hd : derivOf [mkControlPoint ⟨0, 0⟩, mkControlPoint ⟨100, 0⟩] 0 (1 / 4) =
      ⟨105, 0⟩ := by
    show bezierDerivAt ⟨0, 0⟩ (Pt.mk 0 0 + Pt.mk 20 0) (Pt.mk 100 0 + Pt.mk (-20) 0)
      ⟨100, 0⟩ (1 / 4) = ⟨105, 0⟩
    rw [Pt.ext_iff]
    unfold bezierDerivAt
    rw [Pt.add_def, Pt.add_def, Pt.add_def, Pt.add_def, Pt.sub_def, Pt.sub_def,
      Pt.sub_def]
    unfold Pt.scale
    constructor <;> norm_num
  have h2 : (0 : ℝ) < 1 / 4 := by norm_num
  have h3 : (1 / 4 : ℝ) < 1 := by norm_num
  have h4 : (1 / 4 : ℝ) ≠ 1 / 2 := by norm_num
  have h5 : 0.001 < qlineLength ⟨0, 0⟩
      (derivOf [mkControlPoint ⟨0, 0⟩, mkControlPoint ⟨100, 0⟩] 0 (1 / 4)) := by
    rw [hd, qlineLength_horiz]
    norm_num
  have h6 : qlineLength (cpAt [mkControlPoint ⟨0, 0⟩, mkControlPoint ⟨100, 0⟩] 0).pos
      (cpAt [mkControlPoint ⟨0, 0⟩, mkControlPoint ⟨100, 0⟩] (0 + 1)).pos ≠ 0 := by
    show qlineLength ⟨0, 0⟩ ⟨100, 0⟩ ≠ 0
    rw [qlineLength_horiz]
    norm_num
  refine ⟨(new_point_mirrored_but_unbalanced.1 ⟨7, 9⟩).1,
    ⟨h1, h2, h3, h4, h5, h6⟩, ?_⟩
  exact (new_point_mirrored_but_unbalanced.2 _ 0 (1 / 4) h1 h2 h3 h4 h5 h6).2.1

/-! ## C1: rasterization -/

theorem abs_le_qlineLength_x (p c : Pt) : |c.x - p.x| ≤ qlineLength p c := by
  unfold qlineLength
  rw [show |c.x - p.x| = Real.sqrt ((c.x - p.x) ^ 2) from (Real.sqrt_sq_eq_abs _).symm]
  apply Real.sqrt_le_sqrt
  have h := sq_nonneg (c.y - p.y)
  linarith

theorem abs_le_qlineLength_y (p c : Pt) : |c.y - p.y| ≤ qlineLength p c := by
  unfold qlineLength
  rw [show |c.y - p.y| = Real.sqrt ((c.y - p.y) ^ 2) from (Real.sqrt_sq_eq_abs _).symm]
  apply Real.sqrt_le_sqrt
  have h := sq_nonneg (c.x - p.x)
  linarith

/-- A cell center within `r` of coordinate `a` lies inside the
`floor`/`ceil` bounding box the rasterizer iterates over. -/
theorem cell_bound_of_abs_le (z : ℤ) (a r : ℝ) (h : |(z : ℝ) + 0.5 - a| ≤ r) :
    ⌊a - r⌋ ≤ z ∧ z < ⌈a + r⌉ := by
  rw [abs_le] at h
  obtain ⟨h1, h2⟩ := h
  constructor
  · have hf : (⌊a - r⌋ : ℝ) ≤ a - r := Int.floor_le _
    have h3 : (⌊a - r⌋ : ℝ) < (z : ℝ) + 1 := by linarith
    have h4 : ⌊a - r⌋ < z + 1 := by exact_mod_cast h3
    omega
  · have hc : a + r ≤ (⌈a + r⌉ : ℝ) := Int.le_ceil _
    have h3 : (z : ℝ) < (⌈a + r⌉ : ℝ) := by linarith
    exact_mod_cast h3

/-- The bounding-box early-reject is complete: a cell passes the full
code-side test (bounding box and distance) exactly when its center is
within the radius of the sample. -/
theorem cellHitBySample_iff (pt : Pt) (radius : ℝ) (c : ℤ × ℤ) :
    cellHitBySample pt radius c ↔ qlineLength pt (cellCenter c) ≤ radius := by
  constructor
  · rintro ⟨_, _, _, _, h⟩
    exact h
  · intro h
    have hx : |(c.1 : ℝ) + 0.5 - pt.x| ≤ radius := by
      have h1 : |(c.1 : ℝ) + 0.5 - pt.x| ≤ qlineLength pt (cellCenter c) :=
        abs_le_qlineLength_x pt (cellCenter c)
      linarith
    have hy : |(c.2 : ℝ) + 0.5 - pt.y| ≤ radius := by
      have h1 : |(c.2 : ℝ) + 0.5 - pt.y| ≤ qlineLength pt (cellCenter c) :=
        abs_le_qlineLength_y pt (cellCenter c)
      linarith
    obtain ⟨hx1, hx2⟩ := cell_bound_of_abs_le c.1 pt.x radius hx
    obtain ⟨hy1, hy2⟩ := cell_bound_of_abs_le c.2 pt.y radius hy
    exact ⟨hx1, hx2, hy1, hy2, h⟩

/-- C1: with fewer than 2 points rasterization yields the empty cell
set; otherwise the occupied set is exactly the set of integer cells
whose center lies within Euclidean distance `width/2` of some sample
point of some segment (sampled at `t_step/steps`,
`steps = adaptive_step_count`), i.e. the floor/ceil bounding-box
early-reject never excludes a cell whose center is within the radius. -/
theorem updateGrid_matches_spec (pts : List ControlPoint) (width : ℝ) :
    updateGridWithCurve pts width = rasterSpecCells pts width ∧
    (pts.length < 2 → updateGridWithCurve pts width = ∅) := by
  constructor
  · unfold updateGridWithCurve rasterSpecCells
    by_cases h : pts.length < 2
    · rw [if_pos h, if_pos h]
    · rw [if_neg h, if_neg h]
      ext c
      simp only [Set.mem_setOf_eq]
      constructor
      · rintro ⟨i, hi, s, hs, hhit⟩
        exact ⟨i, hi, s, hs, (cellHitBySample_iff _ _ _).mp hhit⟩
      · rintro ⟨i, hi, s, hs, hd⟩
        exact ⟨i, hi, s, hs, (cellHitBySample_iff _ _ _).mpr hd⟩
  · intro h
    unfold updateGridWithCurve
    rw [if_pos h]

/-- Witness for C1: the one-point curve rasterizes to the empty set. -/
theorem updateGrid_matches_spec_witness :
    ([mkControlPoint ⟨0, 0⟩] : List ControlPoint).length < 2 ∧
    updateGridWithCurve [mkControlPoint ⟨0, 0⟩] 3 = ∅ :=
  ⟨by simp, (updateGrid_matches_spec [mkControlPoint ⟨0, 0⟩] 3).2 (by simp)⟩

/-! ## C7: closest-segment query -/

/-- The accumulator value the search loop holds after accepting the
sample `m`. -/
noncomputable def closestOut (zoom : ℝ) (off : Pt) (pts : List ControlPoint)
    (q : Pt) (m : ℕ × ℕ) : EReal × Option ℕ × Option ℝ :=
  ((sampleScreenDist zoom off pts q m : EReal), some m.1, some (sampleT pts m))

theorem foldl_closestUpdate_out (zoom : ℝ) (off : Pt) (pts : List ControlPoint)
    (q : Pt) :
    ∀ (l : List (ℕ × ℕ)) (m0 : ℕ × ℕ),
      ∃ m, (m = m0 ∨ m ∈ l) ∧
        (l.foldl (closestUpdate zoom off pts q) (closestOut zoom off pts q m0) =
          closestOut zoom off pts q m) ∧
        sampleScreenDist zoom off pts q m ≤ sampleScreenDist zoom off pts q m0 ∧
        (∀ x ∈ l,
          sampleScreenDist zoom off pts q m ≤ sampleScreenDist zoom off pts q x) := by
  intro l
  induction l with
  | nil =>
    intro m0
    exact ⟨m0, Or.inl rfl, rfl, le_rfl, by simp⟩
  | cons x l ih =>
    intro m0
    have hstep : closestUpdate zoom off pts q (closestOut zoom off pts q m0) x =
        closestOut zoom off pts q (if sampleScreenDist zoom off pts q x <
          sampleScreenDist zoom off pts q m0 then x else m0) := by
      unfold closestUpdate closestOut
      by_cases hc : sampleScreenDist zoom off pts q x <
        sampleScreenDist zoom off pts q m0
      · rw [if_pos hc, if_pos (EReal.coe_lt_coe_iff.mpr hc)]
      · rw [if_neg hc, if_neg (fun hcon => hc (EReal.coe_lt_coe_iff.mp hcon))]
    rw [List.foldl_cons, hstep]
    by_cases hc : sampleScreenDist zoom off pts q x <
      sampleScreenDist zoom off pts q m0
    · rw [if_pos hc]
      obtain ⟨m, hmem, heq, hle, hall⟩ := ih x
      refine ⟨m, ?_, heq, le_trans hle (le_of_lt hc), ?_⟩
      · rcases hmem with hm | hm
        · exact Or.inr (by rw [hm]; exact List.mem_cons_self x l)
        · exact Or.inr (List.mem_cons_of_mem _ hm)
      · intro y hy
        rcases List.mem_cons.mp hy with hm | hm
        · rw [hm]; exact hle
        · exact hall y hm
    · rw [if_neg hc]
      obtain ⟨m, hmem, heq, hle, hall⟩ := ih m0
      refine ⟨m, ?_, heq, hle, ?_⟩
      · rcases hmem with hm | hm
        · exact Or.inl hm
        · exact Or.inr (List.mem_cons_of_mem _ hm)
      · intro y hy
        rcases List.mem_cons.mp hy with hm | hm
        · rw [hm]; exact le_trans hle (not_lt.mp hc)
        · exact hall y hm

theorem foldl_closestUpdate_init (zoom : ℝ) (off : Pt) (pts : List ControlPoint)
    (q : Pt) (x : ℕ × ℕ) (l : List (ℕ × ℕ)) :
    (x :: l).foldl (closestUpdate zoom off pts q) (⊤, none, none) =
      l.foldl (closestUpdate zoom off pts q) (closestOut zoom off pts q x) := by
  have h1 : closestUpdate zoom off pts q (⊤, none, none) x =
      closestOut zoom off pts q x := by
    unfold closestUpdate closestOut
    rw [if_pos (EReal.coe_lt_top _)]
  rw [List.foldl_cons, h1]

theorem zero_zero_mem_allSamples (pts : List ControlPoint)
    (h : 2 ≤ pts.length) : ((0, 0) : ℕ × ℕ) ∈ allSamples pts := by
  unfold allSamples
  rw [List.mem_flatMap]
  refine ⟨0, ?_, ?_⟩
  · rw [List.mem_range]; omega
  · rw [List.mem_map]
    exact ⟨0, by rw [List.mem_range]; omega, rfl⟩

/-- C7: with fewer than 2 control points the closest-segment query
returns `(∞, none, none)`; otherwise it returns the globally minimal
(screen-space) Euclidean sample-to-query distance over every segment
sampled at the same `adaptive_step_count` density as rasterization,
together with that sample's segment index and parameter `t = j/steps`. -/
theorem findClosestSegment_spec (pts : List ControlPoint) (q : Pt) (zoom : ℝ)
    (off : Pt) :
    (pts.length < 2 → findClosestSegment pts q zoom off = (⊤, none, none)) ∧
    (2 ≤ pts.length → ∃ m, m ∈ allSamples pts ∧
      findClosestSegment pts q zoom off =
        ((sampleScreenDist zoom off pts q m : EReal), some m.1,
          some (sampleT pts m)) ∧
      ∀ x ∈ allSamples pts,
        sampleScreenDist zoom off pts q m ≤ sampleScreenDist zoom off pts q x) := by
  constructor
  · intro h
    unfold findClosestSegment
    rw [if_pos h]
  · intro h
    unfold findClosestSegment
    rw [if_neg (by omega)]
    obtain ⟨x, l, hxl⟩ : ∃ x l, allSamples pts = x :: l := by
      rcases hcase : allSamples pts with _ | ⟨x, l⟩
      · exact absurd (hcase ▸ zero_zero_mem_allSamples pts h) (List.not_mem_nil _)
      · exact ⟨x, l, rfl⟩
    rw [hxl, foldl_closestUpdate_init]
    obtain ⟨m, hmem, heq, hle, hall⟩ := foldl_closestUpdate_out zoom off pts q l x
    refine ⟨m, ?_, heq, ?_⟩
    · rcases hmem with hm | hm
      · rw [hm]; exact List.mem_cons_self _ _
      · exact List.mem_cons_of_mem _ hm
    · intro y hy
      rcases List.mem_cons.mp hy with hm | hm
      · rw [hm]; exact hle
      · exact hall y hm

/-- Witness for C7: the empty curve yields `(∞, none, none)`. -/
theorem findClosestSegment_spec_witness :
    (([] : List ControlPoint).length < 2) ∧
    findClosestSegment [] ⟨0, 0⟩ 1 ⟨0, 0⟩ = (⊤, none, none) :=
  ⟨by simp, (findClosestSegment_spec [] ⟨0, 0⟩ 1 ⟨0, 0⟩).1 (by simp)⟩

end MCCurve
